import Mathlib

/-!
Verification of the fusion-graph construction pipeline of the
compliance-checking repository.  The Python sources are shallowly embedded:
pure string/list manipulation is translated directly; calls to external
services (ConceptNet, DBpedia, the OpenAI chat API) and to the external JSON
parser are modelled as oracle parameters collected in an `Env` record, with
`Option`/`Except` encoding the raise/no-raise behaviour of each call site
exactly as the Python code handles (or fails to handle) it.
-/

namespace FusionSpec

/-! ### Whitespace normalisation (`_norm` in `fusion_graph_builder/__init__.py`
and `term_definition_graph.py`: strip, then collapse every whitespace run to a
single space). -/

/-- ASCII whitespace, matching Python's regex class for the strings involved. -/
def isWs (c : Char) : Bool :=
  c = ' ' || c = '\t' || c = '\n' || c = '\r' || c = '\x0b' || c = '\x0c'

/-- Split a character list into maximal whitespace-free words.
`acc` is the (reversed) word currently being read. -/
def wordsAux : List Char → List Char → List (List Char)
  | [], [] => []
  | [], a :: acc => [(a :: acc).reverse]
  | c :: cs, acc =>
    if isWs c then
      match acc with
      | [] => wordsAux cs []
      | a :: acc' => (a :: acc').reverse :: wordsAux cs []
    else
      wordsAux cs (c :: acc)

/-- Join words with single spaces. -/
def joinWords : List (List Char) → List Char
  | [] => []
  | [w] => w
  | w :: ws => w ++ ' ' :: joinWords ws

/-- Embedding of `_norm`: `re.sub(r"\s+", " ", s.strip())`, i.e. the words of
the string joined by single spaces. -/
def _norm (s : String) : String :=
  ⟨joinWords (wordsAux s.data [])⟩

/-- A word list as produced by `wordsAux`: each word nonempty and
whitespace-free. -/
def GoodWords (ws : List (List Char)) : Prop :=
  ∀ w ∈ ws, w ≠ [] ∧ ∀ c ∈ w, isWs c = false

theorem wordsAux_good (l : List Char) :
    ∀ acc : List Char, (∀ c ∈ acc, isWs c = false) → GoodWords (wordsAux l acc) := by
  induction l with
  | nil =>
    intro acc hacc
    match acc with
    | [] => simp [wordsAux, GoodWords]
    | a :: acc' =>
      intro w hw
      simp only [wordsAux, List.mem_singleton] at hw
      subst hw
      refine ⟨by simp, ?_⟩
      intro c hc
      exact hacc c (List.mem_reverse.mp hc)
  | cons c cs ih =>
    intro acc hacc
    by_cases hws : isWs c
    · match acc with
      | [] =>
        simpa [wordsAux, hws] using ih [] (by simp)
      | a :: acc' =>
        simp only [wordsAux, hws, if_true]
        intro w hw
        rcases List.mem_cons.mp hw with hw | hw
        · subst hw
          refine ⟨by simp, ?_⟩
          intro d hd
          exact hacc d (List.mem_reverse.mp hd)
        · exact ih [] (by simp) w hw
    · simp only [wordsAux, hws, if_false]
      refine ih (c :: acc) ?_
      intro d hd
      rcases List.mem_cons.mp hd with hd | hd
      · subst hd; simpa using hws
      · exact hacc d hd

theorem joinWords_ne_nil {ws : List (List Char)} (hg : GoodWords ws) (h : ws ≠ []) :
    joinWords ws ≠ [] := by
  match ws with
  | [] => exact absurd rfl h
  | [w] =>
    simpa [joinWords] using (hg w (by simp)).1
  | w :: w' :: rest =>
    have hw : w ≠ [] := (hg w (by simp)).1
    simp only [joinWords]
    intro hcontra
    exact hw (List.append_eq_nil.mp hcontra).1

/-- A tidy character list: no leading or trailing whitespace, no two adjacent
whitespace characters, and every whitespace character is a plain space.  This
is exactly "trimmed, with internal whitespace runs collapsed to single
spaces". -/
def TidyChars (l : List Char) : Prop :=
  (∀ c, l.head? = some c → isWs c = false)
  ∧ (∀ c, l.getLast? = some c → isWs c = false)
  ∧ l.Chain' (fun a b => ¬(isWs a = true ∧ isWs b = true))
  ∧ (∀ c ∈ l, isWs c = true → c = ' ')

/-- A tidy string. -/
def Tidy (s : String) : Prop := TidyChars s.data

theorem head?_joinWords_cons {w : List Char} {ws : List (List Char)} (hw : w ≠ []) :
    (joinWords (w :: ws)).head? = w.head? := by
  match ws with
  | [] => rfl
  | w' :: rest =>
    simp only [joinWords]
    match w, hw with
    | a :: w'', _ => rfl

theorem getLast?_joinWords {ws : List (List Char)} (hg : GoodWords ws) :
    ∀ c, (joinWords ws).getLast? = some c → isWs c = false := by
  match ws with
  | [] => intro c hc; simp [joinWords] at hc
  | [w] =>
    intro c hc
    simp only [joinWords] at hc
    exact (hg w (by simp)).2 c (List.mem_of_mem_getLast? hc)
  | w :: w' :: rest =>
    intro c hc
    have hg' : GoodWords (w' :: rest) := by
      intro u hu; exact hg u (List.mem_cons_of_mem _ hu)
    have hne : joinWords (w' :: rest) ≠ [] := joinWords_ne_nil hg' (by simp)
    simp only [joinWords] at hc
    rw [List.getLast?_append_cons] at hc
    match hjw : joinWords (w' :: rest), hne with
    | d :: ds, _ =>
      rw [hjw, List.getLast?_cons_cons] at hc
      exact getLast?_joinWords hg' c (by rw [hjw]; exact hc)

theorem chain'_of_all_not {l : List Char} (h : ∀ c ∈ l, isWs c = false) :
    l.Chain' (fun a b => ¬(isWs a = true ∧ isWs b = true)) := by
  induction l with
  | nil => simp
  | cons a l ih =>
    rw [List.chain'_cons']
    refine ⟨?_, ih fun c hc => h c (List.mem_cons_of_mem _ hc)⟩
    intro b _ hab
    rw [h a (by simp)] at hab
    exact Bool.false_ne_true hab.1

theorem chain'_joinWords {ws : List (List Char)} (hg : GoodWords ws) :
    (joinWords ws).Chain' (fun a b => ¬(isWs a = true ∧ isWs b = true)) := by
  match ws with
  | [] => simp [joinWords]
  | [w] =>
    exact chain'_of_all_not (hg w (by simp)).2
  | w :: w' :: rest =>
    have hg' : GoodWords (w' :: rest) := by
      intro u hu; exact hg u (List.mem_cons_of_mem _ hu)
    have hw : w ≠ [] ∧ ∀ c ∈ w, isWs c = false := hg w (by simp)
    have ihc : (joinWords (w' :: rest)).Chain' (fun a b => ¬(isWs a = true ∧ isWs b = true)) :=
      chain'_joinWords hg'
    simp only [joinWords]
    rw [List.chain'_append]
    refine ⟨chain'_of_all_not hw.2, ?_, ?_⟩
    · rw [List.chain'_cons']
      refine ⟨?_, ihc⟩
      intro b hb hab
      rw [head?_joinWords_cons (hg' w' (by simp)).1] at hb
      have hdw : b ∈ w' := List.mem_of_mem_head? hb
      rw [(hg' w' (by simp)).2 b hdw] at hab
      exact Bool.false_ne_true hab.2
    · intro x hx y hy hxy
      have hxw : x ∈ w := List.mem_of_mem_getLast? hx
      rw [hw.2 x hxw] at hxy
      exact Bool.false_ne_true hxy.1

theorem mem_joinWords {ws : List (List Char)} {c : Char} (hc : c ∈ joinWords ws) :
    c = ' ' ∨ ∃ w ∈ ws, c ∈ w := by
  match ws with
  | [] => simp [joinWords] at hc
  | [w] =>
    exact Or.inr ⟨w, by simp, by simpa [joinWords] using hc⟩
  | w :: w' :: rest =>
    simp only [joinWords, List.mem_append, List.mem_cons] at hc
    rcases hc with hc | hc | hc
    · exact Or.inr ⟨w, by simp, hc⟩
    · exact Or.inl hc
    · rcases mem_joinWords hc with h | ⟨u, hu, hcu⟩
      · exact Or.inl h
      · exact Or.inr ⟨u, List.mem_cons_of_mem _ hu, hcu⟩

/-- The output of `_norm` is always tidy: trimmed, single internal spaces. -/
theorem tidy_norm (s : String) : Tidy (_norm s) := by
  have hg : GoodWords (wordsAux s.data []) := wordsAux_good s.data [] (by simp)
  have hdata : (_norm s).data = joinWords (wordsAux s.data []) := rfl
  unfold Tidy TidyChars
  rw [hdata]
  refine ⟨?_, getLast?_joinWords hg, chain'_joinWords hg, ?_⟩
  · intro c hc
    cases hws : wordsAux s.data [] with
    | nil => rw [hws] at hc; simp [joinWords] at hc
    | cons w ws =>
      rw [hws] at hc hg
      rw [head?_joinWords_cons (hg w (by simp)).1] at hc
      exact (hg w (by simp)).2 c (List.mem_of_mem_head? hc)
  · intro c hc hcw
    rcases mem_joinWords hc with h | ⟨w, hw, hcw'⟩
    · exact h
    · rw [(hg w hw).2 c hcw'] at hcw
      exact absurd hcw Bool.false_ne_true

/-- Python `str.lower()` (the strings involved are ASCII): lowercase each
character.  Defined over the character list so that it evaluates in the
kernel. -/
def lower (s : String) : String := ⟨s.data.map Char.toLower⟩

/-- Character-list prefix test (for `str.startswith`). -/
def pfx : List Char → List Char → Bool
  | [], _ => true
  | _ :: _, [] => false
  | a :: as, b :: bs => a == b && pfx as bs

/-! ### Data model -/

/-- A source-level triple `{source, relation, target}` as returned by the
adapters. -/
structure Triple where
  source : String
  relation : String
  target : String
deriving DecidableEq, Repr

/-- A fusion-graph edge `{source, relation, target, source_graph}`. -/
structure Edge where
  source : String
  relation : String
  target : String
  source_graph : String
deriving DecidableEq, Repr

/-- The final output object `{"edges": [...]}` of `build_fusion_graph`. -/
structure FusionGraph where
  edges : List Edge
deriving DecidableEq, Repr

/-! ### The Edge Deduplicator (`_dedup_edges`, `__init__.py` lines 80-91) -/

/-- The dedup key as computed on the already-normalised fields:
`(src.lower(), rel, tgt.lower(), source_graph)`. -/
def okey (e : Edge) : String × String × String × String :=
  (lower e.source, e.relation, lower e.target, e.source_graph)

/-- An edge with its three string fields normalised (`_norm`), keeping the
`source_graph` tag. -/
def enorm (e : Edge) : Edge :=
  ⟨_norm e.source, _norm e.relation, _norm e.target, e.source_graph⟩

/-- The dedup key of an arbitrary edge: normalise first, then
`(lower, id, lower, id)` exactly as line 86 of `__init__.py`. -/
def ekey (e : Edge) : String × String × String × String :=
  okey (enorm e)

/-- Line 87: an edge survives only if all three normalised fields are
nonempty. -/
def evalid (e : Edge) : Bool :=
  (_norm e.source != "") && (_norm e.relation != "") && (_norm e.target != "")

/-- The loop body of `_dedup_edges` with the running `seen` key set. -/
def dedupGo (seen : List (String × String × String × String)) :
    List Edge → List Edge
  | [] => []
  | e :: rest =>
    if evalid e then
      if ekey e ∈ seen then dedupGo seen rest
      else enorm e :: dedupGo (ekey e :: seen) rest
    else dedupGo seen rest

/-- Embedding of `_dedup_edges`. -/
def _dedup_edges (l : List Edge) : List Edge := dedupGo [] l

theorem okey_enorm (e : Edge) : okey (enorm e) = ekey e := rfl

/-- Every output edge of `dedupGo` is the normalisation of a valid input edge
whose key is not in `seen`. -/
theorem dedupGo_sound (seen : List (String × String × String × String)) :
    ∀ l : List Edge, ∀ e' ∈ dedupGo seen l,
      ∃ e ∈ l, e' = enorm e ∧ evalid e = true ∧ ekey e ∉ seen := by
  intro l
  induction l generalizing seen with
  | nil => intro e' h; simp [dedupGo] at h
  | cons e rest ih =>
    intro e' h
    by_cases hv : evalid e
    · by_cases hs : ekey e ∈ seen
      · simp only [dedupGo, hv, if_true, hs] at h
        obtain ⟨x, hx, hrest⟩ := ih seen e' h
        exact ⟨x, List.mem_cons_of_mem _ hx, hrest⟩
      · simp only [dedupGo, hv, if_true, hs, if_false] at h
        rcases List.mem_cons.mp h with h | h
        · exact ⟨e, by simp, h, hv, hs⟩
        · obtain ⟨x, hx, hrest⟩ := ih (ekey e :: seen) e' h
          exact ⟨x, List.mem_cons_of_mem _ hx, hrest.1, hrest.2.1,
            fun hmem => hrest.2.2 (List.mem_cons_of_mem _ hmem)⟩
    · simp only [dedupGo, hv] at h
      simp only [Bool.false_eq_true, if_false] at h
      obtain ⟨x, hx, hrest⟩ := ih seen e' h
      exact ⟨x, List.mem_cons_of_mem _ hx, hrest⟩

/-- The output keys of `dedupGo` are distinct and avoid `seen`: an equal-key
collapse retains a single edge. -/
theorem dedupGo_nodup (seen : List (String × String × String × String)) :
    ∀ l : List Edge, ((dedupGo seen l).map okey).Nodup
      ∧ ∀ k ∈ (dedupGo seen l).map okey, k ∉ seen := by
  intro l
  induction l generalizing seen with
  | nil => simp [dedupGo]
  | cons e rest ih =>
    by_cases hv : evalid e
    · by_cases hs : ekey e ∈ seen
      · simpa only [dedupGo, hv, if_true, hs] using ih seen
      · simp only [dedupGo, hv, if_true, hs, if_false, List.map_cons, List.nodup_cons]
        obtain ⟨ihn, ihs⟩ := ih (ekey e :: seen)
        refine ⟨⟨?_, ihn⟩, ?_⟩
        · rw [okey_enorm]
          intro hmem
          exact ihs _ hmem (by simp)
        · intro k hk
          rcases List.mem_cons.mp hk with hk | hk
          · rw [okey_enorm] at hk; subst hk; exact hs
          · intro hmem
            exact ihs k hk (List.mem_cons_of_mem _ hmem)
    · simp only [dedupGo, hv]
      simpa only [Bool.false_eq_true, if_false] using ih seen

/-- Every valid input edge has a key representative among the output edges. -/
theorem dedupGo_complete (seen : List (String × String × String × String)) :
    ∀ l : List Edge, ∀ e ∈ l, evalid e = true → ekey e ∉ seen →
      ∃ e' ∈ dedupGo seen l, okey e' = ekey e := by
  intro l
  induction l generalizing seen with
  | nil => intro e h; simp at h
  | cons x rest ih =>
    intro e he hv hs
    by_cases hvx : evalid x
    · by_cases hsx : ekey x ∈ seen
      · simp only [dedupGo, hvx, if_true, hsx]
        rcases List.mem_cons.mp he with he | he
        · subst he; exact absurd hsx hs
        · exact ih seen e he hv hs
      · simp only [dedupGo, hvx, if_true, hsx, if_false]
        by_cases hkey : ekey e = ekey x
        · exact ⟨enorm x, by simp, by rw [okey_enorm, hkey]⟩
        · rcases List.mem_cons.mp he with he | he
          · subst he; exact absurd rfl hkey
          · obtain ⟨e', he', hk⟩ := ih (ekey x :: seen) e he hv
              (by
                intro hmem
                rcases List.mem_cons.mp hmem with hmem | hmem
                · exact hkey hmem
                · exact hs hmem)
            exact ⟨e', List.mem_cons_of_mem _ he', hk⟩
    · simp only [dedupGo, hvx, Bool.false_eq_true, if_false]
      rcases List.mem_cons.mp he with he | he
      · subst he; exact absurd hv (by simp [hvx])
      · exact ih seen e he hv hs

/-- First-occurrence retention: looking up a key in the output finds exactly
the normalisation of the first valid input edge carrying that key. -/
theorem dedupGo_first (seen : List (String × String × String × String)) :
    ∀ (l : List Edge) (k : String × String × String × String), k ∉ seen →
      (dedupGo seen l).find? (fun e' => okey e' == k)
        = ((l.find? fun e => evalid e && (ekey e == k)).map enorm) := by
  intro l
  induction l generalizing seen with
  | nil => intro k _; simp [dedupGo]
  | cons e rest ih =>
    intro k hk
    by_cases hv : evalid e
    · by_cases hs : ekey e ∈ seen
      · have hne : ekey e ≠ k := fun h => hk (h ▸ hs)
        rw [show dedupGo seen (e :: rest) = dedupGo seen rest by
              simp only [dedupGo, hv, if_true]; rw [if_pos hs],
            List.find?_cons_of_neg _ (by simp [hv, hne])]
        exact ih seen k hk
      · have hstep : dedupGo seen (e :: rest)
            = enorm e :: dedupGo (ekey e :: seen) rest := by
          simp only [dedupGo, hv, if_true]; rw [if_neg hs]
        by_cases hkey : ekey e = k
        · rw [hstep,
              List.find?_cons_of_pos _ (by rw [okey_enorm]; exact beq_iff_eq.mpr hkey),
              List.find?_cons_of_pos _ (by simp [hv, hkey])]
          rfl
        · rw [hstep,
              List.find?_cons_of_neg _ (by rw [okey_enorm]; simp [hkey]),
              List.find?_cons_of_neg _ (by simp [hkey])]
          exact ih (ekey e :: seen) k (by
            intro hmem
            rcases List.mem_cons.mp hmem with hmem | hmem
            · exact hkey hmem.symm
            · exact hk hmem)
    · rw [show dedupGo seen (e :: rest) = dedupGo seen rest by
            simp [dedupGo, hv],
          List.find?_cons_of_neg _ (by simp [hv])]
      exact ih seen k hk

/-- Dropping an invalid edge: an edge with an empty normalised source,
relation or target contributes nothing to `_dedup_edges`. -/
theorem dedup_drops_invalid (e : Edge) (l : List Edge) (h : evalid e = false) :
    _dedup_edges (e :: l) = _dedup_edges l := by
  simp [_dedup_edges, dedupGo, h]

/-- Key membership in the dedup output. -/
theorem mem_key_dedup (l : List Edge) (k : String × String × String × String) :
    k ∈ (_dedup_edges l).map okey ↔ ∃ e ∈ l, evalid e = true ∧ ekey e = k := by
  constructor
  · intro hk
    obtain ⟨e', he', hke⟩ := List.mem_map.mp hk
    obtain ⟨e, he, hee, hv, _⟩ := dedupGo_sound [] l e' he'
    refine ⟨e, he, hv, ?_⟩
    rw [← hke, hee, okey_enorm]
  · rintro ⟨e, he, hv, hk⟩
    obtain ⟨e', he', hke⟩ := dedupGo_complete [] l e he hv (by simp)
    exact List.mem_map.mpr ⟨e', he', by rw [hke, hk]⟩

/-! ### The Concept Adapter (`concept_graph_search.py`, `fetch_conceptnet_triples`)

The HTTP request and the label extraction from the raw JSON
(`_label_of`, `_rel_of`) are the thin I/O boundary: a successful response is
modelled as a list of `CEdge` records carrying the already-extracted
source/relation/target labels and the numeric weight (`edge.get("weight", 0)`),
a failed or unparsable response as `none` (the `try/except` returns `[]`). -/

/-- One edge of a parsed ConceptNet response. -/
structure CEdge where
  source : String
  relation : String
  target : String
  weight : Rat
deriving DecidableEq, Repr

/-- The per-call dedup signature `(src.lower(), rel, tgt.lower())`. -/
def csig (e : CEdge) : String × String × String :=
  (lower e.source, e.relation, lower e.target)

/-- Dropping the weight field (`t.pop("weight", None)`). -/
def stripW (e : CEdge) : Triple := ⟨e.source, e.relation, e.target⟩

/-- The relation filter `if relations and rel not in relations: continue`
(Python truthiness: `None` or an empty collection disables the filter). -/
def keepRel (relations : Option (List String)) (r : String) : Bool :=
  match relations with
  | none => true
  | some rl => if rl.isEmpty then true else rl.contains r

/-- The collection loop of `fetch_conceptnet_triples`: weight filter,
relation filter, then first-occurrence dedup on `csig`. -/
def collectC (relations : Option (List String)) (minW : Rat)
    (seen : List (String × String × String)) : List CEdge → List CEdge
  | [] => []
  | e :: rest =>
    if e.weight < minW then collectC relations minW seen rest
    else if keepRel relations e.relation then
      if csig e ∈ seen then collectC relations minW seen rest
      else e :: collectC relations minW (csig e :: seen) rest
    else collectC relations minW seen rest

/-- Python's stable `list.sort(key=weight, reverse=True)`: a stable descending
sort by weight. -/
def sortDescW (l : List CEdge) : List CEdge :=
  l.insertionSort (fun a b => b.weight ≤ a.weight)

/-- `triples[:max_num]` when `max_num is not None`. -/
def truncOpt (k : Option Nat) (l : List CEdge) : List CEdge :=
  match k with
  | some n => l.take n
  | none => l

/-- Embedding of `fetch_conceptnet_triples`: `data` is the parsed response
(`none` when the request or JSON decoding raised, line 61-62 returns `[]`). -/
def fetch_conceptnet_triples (data : Option (List CEdge))
    (relations : Option (List String)) (min_weight : Rat)
    (max_num : Option Nat) : List Triple :=
  match data with
  | none => []
  | some edges =>
    (truncOpt max_num (sortDescW (collectC relations min_weight [] edges))).map stripW

instance : IsTotal CEdge (fun a b => b.weight ≤ a.weight) :=
  ⟨fun a b => le_total b.weight a.weight⟩

instance : IsTrans CEdge (fun a b => b.weight ≤ a.weight) :=
  ⟨fun _ _ _ hab hbc => le_trans hbc hab⟩

theorem collectC_sound (relations : Option (List String)) (minW : Rat) :
    ∀ (seen : List (String × String × String)) (l : List CEdge),
      ∀ e ∈ collectC relations minW seen l,
        e ∈ l ∧ minW ≤ e.weight ∧ csig e ∉ seen := by
  intro seen l
  induction l generalizing seen with
  | nil => intro e h; simp [collectC] at h
  | cons x rest ih =>
    intro e he
    by_cases hw : x.weight < minW
    · rw [show collectC relations minW seen (x :: rest)
            = collectC relations minW seen rest by
          simp only [collectC]; rw [if_pos hw]] at he
      obtain ⟨h1, h2, h3⟩ := ih seen e he
      exact ⟨List.mem_cons_of_mem _ h1, h2, h3⟩
    · by_cases hr : keepRel relations x.relation
      · by_cases hs : csig x ∈ seen
        · rw [show collectC relations minW seen (x :: rest)
                = collectC relations minW seen rest by
              simp only [collectC, hr, if_true]; rw [if_neg hw, if_pos hs]] at he
          obtain ⟨h1, h2, h3⟩ := ih seen e he
          exact ⟨List.mem_cons_of_mem _ h1, h2, h3⟩
        · rw [show collectC relations minW seen (x :: rest)
                = x :: collectC relations minW (csig x :: seen) rest by
              simp only [collectC, hr, if_true]; rw [if_neg hw, if_neg hs]] at he
          rcases List.mem_cons.mp he with he | he
          · subst he
            exact ⟨by simp, not_lt.mp hw, hs⟩
          · obtain ⟨h1, h2, h3⟩ := ih (csig x :: seen) e he
            exact ⟨List.mem_cons_of_mem _ h1, h2,
              fun hmem => h3 (List.mem_cons_of_mem _ hmem)⟩
      · rw [show collectC relations minW seen (x :: rest)
              = collectC relations minW seen rest by
            simp only [collectC]; rw [if_neg hw, if_neg hr]] at he
        obtain ⟨h1, h2, h3⟩ := ih seen e he
        exact ⟨List.mem_cons_of_mem _ h1, h2, h3⟩

theorem collectC_nodup (relations : Option (List String)) (minW : Rat) :
    ∀ (seen : List (String × String × String)) (l : List CEdge),
      ((collectC relations minW seen l).map csig).Nodup
        ∧ ∀ k ∈ (collectC relations minW seen l).map csig, k ∉ seen := by
  intro seen l
  induction l generalizing seen with
  | nil => simp [collectC]
  | cons x rest ih =>
    by_cases hw : x.weight < minW
    · rw [show collectC relations minW seen (x :: rest)
            = collectC relations minW seen rest by
          simp only [collectC]; rw [if_pos hw]]
      exact ih seen
    · by_cases hr : keepRel relations x.relation
      · by_cases hs : csig x ∈ seen
        · rw [show collectC relations minW seen (x :: rest)
                = collectC relations minW seen rest by
              simp only [collectC, hr, if_true]; rw [if_neg hw, if_pos hs]]
          exact ih seen
        · rw [show collectC relations minW seen (x :: rest)
                = x :: collectC relations minW (csig x :: seen) rest by
              simp only [collectC, hr, if_true]; rw [if_neg hw, if_neg hs]]
          obtain ⟨ihn, ihs⟩ := ih (csig x :: seen)
          simp only [List.map_cons, List.nodup_cons]
          refine ⟨⟨?_, ihn⟩, ?_⟩
          · intro hmem
            exact ihs _ hmem (by simp)
          · intro k hk
            rcases List.mem_cons.mp hk with hk | hk
            · subst hk; exact hs
            · intro hmem
              exact ihs k hk (List.mem_cons_of_mem _ hmem)
      · rw [show collectC relations minW seen (x :: rest)
              = collectC relations minW seen rest by
            simp only [collectC]; rw [if_neg hw, if_neg hr]]
        exact ih seen

/-! ### Eventic seed conversion (`_eventic_to_triples`,
`_extract_agents_from_eventic`) -/

/-- An event record is a Python dict, modelled as an association list in
insertion order. -/
def EventRecord := List (String × String)

/-- `row.get(k)` coerced through the `or` chain: `""` when absent. -/
def rget (row : EventRecord) (k : String) : String :=
  match List.lookup k row with
  | some v => v
  | none => ""

/-- Python `a or b` on strings: first truthy (nonempty) value. -/
def orElseStr (a b : String) : String := if a = "" then b else a

/-- Embedding of `_eventic_to_triples` (`__init__.py` lines 62-78). -/
def _eventic_to_triples (rows : List EventRecord) : List Edge :=
  rows.filterMap fun row =>
    let agent := orElseStr (rget row "Agent") (orElseStr (rget row "agent")
      (orElseStr (rget row "Agent1") (rget row "agent1")))
    let deon := orElseStr (rget row "Deontic") (rget row "deontic")
    let act := orElseStr (rget row "Action") (rget row "action")
    if agent ≠ "" ∧ deon ≠ "" ∧ act ≠ "" then
      some ⟨_norm agent, _norm deon, _norm act, "eventic"⟩
    else
      none

/-- `_is_agent_key` (`__init__.py` lines 42-44). -/
def _is_agent_key (k : String) : Bool :=
  lower k == "agent" || pfx "agent".data (lower k).data

/-- The first value in the row stored under an agent-like key. -/
def agentValue (row : EventRecord) : Option String :=
  match row.find? (fun kv => _is_agent_key kv.1) with
  | some kv => some kv.2
  | none => none

/-- Order-preserving case-insensitive dedup skipping empties (the `uniq, seen`
loop of `_extract_agents_from_eventic`). -/
def uniqCI (seen : List String) : List String → List String
  | [] => []
  | a :: rest =>
    if a ≠ "" ∧ lower a ∉ seen then a :: uniqCI (lower a :: seen) rest
    else uniqCI seen rest

/-- Embedding of `_extract_agents_from_eventic` (`__init__.py` lines 46-60). -/
def _extract_agents_from_eventic (rows : List EventRecord) : List String :=
  uniqCI [] (rows.filterMap fun row =>
    match agentValue row with
    | some v => if v = "" then none else some (_norm v)
    | none => none)

/-! ### The Term-Definition Adapter (`term_definition_graph.py`)

`json.loads` is external; its outcome on a given text is modelled as an
oracle returning `none` when it raises, or the shape the code observes:
a dict seen through `str(d.get("source"/"relation"/"target", ""))`, a list
seen through its optional first element, or any other JSON value. -/

/-- The observable shape of a `json.loads` result, as consumed by
`_coerce_single_triple`. -/
inductive PyObj where
  | pdict (src rel tgt : String)
  | plist (head : Option PyObj)
  | pother

/-- `_from_dict` (`term_definition_graph.py` lines 24-30). -/
def _from_dict (src rel tgt : String) : Option Triple :=
  let s := _norm src
  let r := _norm rel
  let t := _norm tgt
  if s ≠ "" ∧ t ≠ "" ∧ r ≠ "" then some ⟨s, "IsA", t⟩ else none

/-- Steps 1/2 of `_coerce_single_triple` applied to one `json.loads` outcome:
a dict is coerced directly, a list through its first element when that is a
dict, anything else fails. -/
def tryObj : Option PyObj → Option Triple
  | some (.pdict s r t) => _from_dict s r t
  | some (.plist (some (.pdict s r t))) => _from_dict s r t
  | _ => none

/-- The irrecoverable-failure fallback (line 60). -/
def fallbackTriple (keyword : String) : Triple :=
  ⟨_norm keyword, "IsA", ""⟩

/-- Embedding of `_coerce_single_triple`: direct parse, then the
```json fenced block (the regex search is the oracle `fence`), then the
fallback. -/
def _coerce_single_triple (loads : String → Option PyObj)
    (fence : String → Option String) (text keyword : String) : Triple :=
  match tryObj (loads text) with
  | some tri => tri
  | none =>
    match fence text with
    | some inner =>
      match tryObj (loads inner) with
      | some tri => tri
      | none => fallbackTriple keyword
    | none => fallbackTriple keyword

/-- Embedding of `build_term_definition_triples` (lines 98-123) given the
model's response `text`: coerce, then pin `relation = "IsA"` and
`source = keyword`, and wrap in a one-element list. -/
def build_term_definition_triples (loads : String → Option PyObj)
    (fence : String → Option String) (keyword text : String) : List Triple :=
  let tri := _coerce_single_triple loads fence text keyword
  [{ tri with relation := "IsA", source := keyword }]

/-! ### The Relevance Filter (`_pick_hard_agents_via_gpt`,
`__init__.py` lines 138-169) -/

/-- The outcome of `json.loads` on a filter response, as observed by
the code: `raised` when `json.loads` raises; `badShape` when it parses to a
non-dict so `data.get("keep")` raises `AttributeError`; `keepList l` when
`data.get("keep") or []` yields a list whose `str()`-coerced elements are
`l`. -/
inductive FilterRes where
  | keepList (l : List String)
  | raised
  | badShape
deriving DecidableEq, Repr

/-- `cand_map = {c.lower(): c for c in cands}`: dict comprehension, later
entries overwrite earlier ones, so lookup returns the last matching
candidate. -/
def cmapLookup (cands : List String) (k : String) : Option String :=
  (cands.filter fun c => lower c = k).getLast?

/-- The refinement loop: intersect the model's keep list with the original
candidates, case-insensitively, skipping repeats. -/
def refineGo (cands : List String) (seen : List String) :
    List String → List String
  | [] => []
  | t :: rest =>
    let k := lower (_norm t)
    match cmapLookup cands k with
    | some c =>
      if k ∈ seen then refineGo cands seen rest
      else c :: refineGo cands (k :: seen) rest
    | none => refineGo cands seen rest

/-! ### The environment of external calls -/

/-- All external behaviour the pipeline depends on.  `Option`/`FilterRes`
encode the raise behaviour of each call: `none`/`raised`/`badShape` stand for
a raised exception at that call site. -/
structure Env where
  /-- `client.chat.completions.create` in `_pick_hard_agents_via_gpt`
  (unguarded: a transport failure raises). -/
  filterCall : List String → Option String
  /-- `json.loads` on a filter response text. -/
  filterLoads : String → FilterRes
  /-- The fenced-block regex search in `_pick_hard_agents_via_gpt`. -/
  fencedFilter : String → Option String
  /-- Parsed ConceptNet response for a term, `none` when the request/JSON
  raised (caught, line 61-62). -/
  conceptData : String → Option (List CEdge)
  /-- Result of `fetch_dbpedia_triples` (this adapter catches all its
  errors and returns a list). -/
  entityFetch : String → List Triple
  /-- `client.chat.completions.create` in `build_term_definition_triples`
  (unguarded: a transport failure raises). -/
  tdgCall : String → Option String
  /-- `json.loads` on a TDG response text, `none` when it raises (caught). -/
  tdgLoads : String → Option PyObj
  /-- The fenced-block regex search in `_coerce_single_triple`. -/
  fencedTdg : String → Option String

/-- The configuration recognised by the orchestrator/round. -/
structure Cfg where
  concept_min_weight : Rat
  concept_max : Option Nat
  entity_max : Option Nat
  include_tdg_edges : Bool
  use_concept_graph : Bool
  use_entity_graph : Bool
  use_term_definition_graph : Bool

/-- Embedding of `_pick_hard_agents_via_gpt`.  `.error ()` marks an exception
escaping the function: the unguarded model call, a non-dict parse
(`data.get` raising), or the unguarded second `json.loads` of the fenced
block. -/
def _pick_hard_agents_via_gpt (env : Env) (cands : List String) :
    Except Unit (List String) :=
  if cands.isEmpty then .ok []
  else
    match env.filterCall cands with
    | none => .error ()
    | some text =>
      match env.filterLoads text with
      | .keepList keep => .ok (refineGo cands [] keep)
      | .badShape => .error ()
      | .raised =>
        match env.fencedFilter text with
        | none => .ok (refineGo cands [] [])
        | some inner =>
          match env.filterLoads inner with
          | .keepList keep => .ok (refineGo cands [] keep)
          | _ => .error ()

/-! ### The Expansion Round (`_expand_once`, `__init__.py` lines 175-255) -/

/-- The Concept adapter contribution for one agent (lines 213-220). -/
def conceptRes (env : Env) (cfg : Cfg) (a : String) : List Triple :=
  if cfg.use_concept_graph then
    fetch_conceptnet_triples (env.conceptData a) none cfg.concept_min_weight
      cfg.concept_max
  else []

/-- The Entity adapter contribution for one agent (lines 223-230). -/
def entityRes (env : Env) (cfg : Cfg) (a : String) : List Triple :=
  if cfg.use_entity_graph then env.entityFetch a else []

/-- `{**t, "source_graph": g}`. -/
def tagEdge (g : String) (t : Triple) : Edge :=
  ⟨t.source, t.relation, t.target, g⟩

/-- The TDG call made by the round, raising on transport failure. -/
def tdgAdapter (env : Env) (a : String) : Except Unit (List Triple) :=
  match env.tdgCall a with
  | none => .error ()
  | some text => .ok (build_term_definition_triples env.tdgLoads env.fencedTdg a text)

/-- The per-agent body of the expansion loop: collected tagged edges and raw
frontier candidates (Concept/Entity targets only; TDG is invoked when enabled
but its targets are never enqueued). -/
def agentStep (env : Env) (cfg : Cfg) (a : String) :
    Except Unit (List Edge × List String) := do
  let cTris := conceptRes env cfg a
  let eTris := entityRes env cfg a
  let tTris ← if cfg.use_term_definition_graph then tdgAdapter env a else pure []
  let tagged := cTris.map (tagEdge "concept") ++ eTris.map (tagEdge "entity")
    ++ (if cfg.include_tdg_edges then tTris.map (tagEdge "term_definition") else [])
  pure (tagged, cTris.map Triple.target ++ eTris.map Triple.target)

/-- The fan-out over the (filtered) agent list. -/
def expandLoop (env : Env) (cfg : Cfg) :
    List String → Except Unit (List Edge × List String)
  | [] => .ok ([], [])
  | a :: rest => do
    let (e1, q1) ← agentStep env cfg a
    let (e2, q2) ← expandLoop env cfg rest
    pure (e1 ++ e2, q1 ++ q2)

/-- The next-round queue construction (lines 242-250): normalise, drop
empties, exclude anything whose lowercase form is a current agent's lowercase
form or already seen. -/
def frontGo (cur : List String) (seen : List String) :
    List String → List String
  | [] => []
  | x :: rest =>
    let xn := _norm x
    if xn = "" then frontGo cur seen rest
    else
      if lower xn ∈ cur ∨ lower xn ∈ seen then frontGo cur seen rest
      else xn :: frontGo cur (lower xn :: seen) rest

/-- Embedding of `_expand_once`. -/
def _expand_once (env : Env) (cfg : Cfg) (agent_list : List String) :
    Except Unit (List Edge × List String) := do
  let picked ← _pick_hard_agents_via_gpt env agent_list
  let hard := if picked.isEmpty then agent_list else picked
  let (edges, queue) ← expandLoop env cfg hard
  pure (_dedup_edges edges, frontGo (agent_list.map lower) [] queue)

/-! ### The Fusion Orchestrator (`build_fusion_graph`, lines 261-322) -/

/-- The round loop: stop on an exhausted budget or an empty queue, otherwise
run one expansion and accumulate. -/
def fusionRounds (env : Env) (cfg : Cfg) :
    Nat → List Edge → List String → Except Unit (List Edge)
  | 0, acc, _ => .ok acc
  | n + 1, acc, queue =>
    if queue.isEmpty then .ok acc
    else do
      let (stepEdges, newQueue) ← _expand_once env cfg queue
      fusionRounds env cfg n (acc ++ stepEdges) newQueue

/-- Embedding of `build_fusion_graph`.  `rounds` is an `Int` like the Python
parameter; `range(max(0, int(rounds)))` iterates `(max 0 rounds).toNat`
times. -/
def build_fusion_graph (env : Env) (cfg : Cfg) (eventic_edges : List EventRecord)
    (rounds : Int) : Except Unit FusionGraph := do
  let seed := _eventic_to_triples eventic_edges
  let queue := _extract_agents_from_eventic eventic_edges
  let acc ← fusionRounds env cfg (max 0 rounds).toNat seed queue
  pure ⟨_dedup_edges acc⟩

/-! ### Pipeline lemmas -/

theorem build_fusion_graph_eq (env : Env) (cfg : Cfg) (events : List EventRecord)
    (rounds : Int) :
    build_fusion_graph env cfg events rounds
      = (fusionRounds env cfg (max 0 rounds).toNat (_eventic_to_triples events)
          (_extract_agents_from_eventic events)).map (fun acc => ⟨_dedup_edges acc⟩) := by
  unfold build_fusion_graph
  cases h : fusionRounds env cfg (max 0 rounds).toNat (_eventic_to_triples events)
      (_extract_agents_from_eventic events) <;>
    simp [h, Except.map, Bind.bind, Except.bind, Pure.pure, Except.pure]

/-- Whatever has been accumulated is still present after the remaining
rounds: `final_edges.extend(step_edges)` only appends. -/
theorem fusionRounds_mono (env : Env) (cfg : Cfg) :
    ∀ (n : Nat) (acc : List Edge) (queue : List String) (out : List Edge),
      fusionRounds env cfg n acc queue = .ok out → ∀ e ∈ acc, e ∈ out := by
  intro n
  induction n with
  | zero =>
    intro acc queue out h
    simp only [fusionRounds] at h
    cases h
    exact fun e he => he
  | succ n ih =>
    intro acc queue out h
    simp only [fusionRounds] at h
    by_cases hq : queue.isEmpty
    · rw [if_pos hq] at h
      cases h
      exact fun e he => he
    · rw [if_neg hq] at h
      cases hx : _expand_once env cfg queue with
      | error u => rw [hx] at h; exact absurd h (by simp [Bind.bind, Except.bind])
      | ok p =>
        rw [hx] at h
        have h' : fusionRounds env cfg n (acc ++ p.1) p.2 = .ok out := by
          simpa [Bind.bind, Except.bind] using h
        intro e he
        exact ih (acc ++ p.1) p.2 out h' e (List.mem_append_left _ he)

/-- Shape of every edge in the deduplicated output. -/
theorem dedup_shape (l : List Edge) :
    ∀ e' ∈ _dedup_edges l, ∃ e, e' = enorm e ∧ evalid e = true := by
  intro e' h
  obtain ⟨e, _, hee, hv, _⟩ := dedupGo_sound [] l e' h
  exact ⟨e, hee, hv⟩

/-- Field-level consequences of `evalid` for the normalised edge. -/
theorem enorm_fields {e : Edge} (hv : evalid e = true) :
    (enorm e).source ≠ "" ∧ (enorm e).relation ≠ "" ∧ (enorm e).target ≠ ""
      ∧ Tidy (enorm e).source ∧ Tidy (enorm e).relation ∧ Tidy (enorm e).target := by
  unfold evalid at hv
  simp only [Bool.and_eq_true, bne_iff_ne, ne_eq] at hv
  exact ⟨hv.1.1, hv.1.2, hv.2, tidy_norm e.source, tidy_norm e.relation,
    tidy_norm e.target⟩

/-- Every edge of a successful `build_fusion_graph` output is the
normalisation of some valid edge. -/
theorem build_ok_edges_shape {env : Env} {cfg : Cfg} {events : List EventRecord}
    {rounds : Int} {g : FusionGraph}
    (h : build_fusion_graph env cfg events rounds = .ok g) :
    ∀ e ∈ g.edges, ∃ x, e = enorm x ∧ evalid x = true := by
  rw [build_fusion_graph_eq] at h
  cases hf : fusionRounds env cfg (max 0 rounds).toNat (_eventic_to_triples events)
      (_extract_agents_from_eventic events) with
  | error u => rw [hf] at h; exact absurd h (by simp [Except.map])
  | ok acc =>
    rw [hf] at h
    simp only [Except.map, Except.ok.injEq] at h
    subst h
    exact dedup_shape acc

theorem cmapLookup_some {cands : List String} {k c : String}
    (h : cmapLookup cands k = some c) : c ∈ cands ∧ lower c = k := by
  unfold cmapLookup at h
  have hm := List.mem_of_mem_getLast? h
  rw [List.mem_filter] at hm
  exact ⟨hm.1, of_decide_eq_true hm.2⟩

theorem refineGo_sound (cands : List String) :
    ∀ (seen keep : List String), ∀ c ∈ refineGo cands seen keep,
      c ∈ cands ∧ lower c ∉ seen := by
  intro seen keep
  induction keep generalizing seen with
  | nil => intro c h; simp [refineGo] at h
  | cons t rest ih =>
    intro c hc
    simp only [refineGo] at hc
    split at hc
    next c0 hl =>
      split at hc
      next => exact ih seen c hc
      next hs =>
        rcases List.mem_cons.mp hc with hc | hc
        · subst hc
          obtain ⟨hmem, hlow⟩ := cmapLookup_some hl
          exact ⟨hmem, by rw [hlow]; exact hs⟩
        · obtain ⟨h1, h2⟩ := ih (lower (_norm t) :: seen) c hc
          exact ⟨h1, fun hmem => h2 (List.mem_cons_of_mem _ hmem)⟩
    next hl => exact ih seen c hc

theorem refineGo_nodup (cands : List String) :
    ∀ (seen keep : List String),
      ((refineGo cands seen keep).map lower).Nodup
        ∧ ∀ x ∈ (refineGo cands seen keep).map lower, x ∉ seen := by
  intro seen keep
  induction keep generalizing seen with
  | nil => simp [refineGo]
  | cons t rest ih =>
    simp only [refineGo]
    split
    next c0 hl =>
      split
      next => exact ih seen
      next hs =>
        obtain ⟨ihn, ihs⟩ := ih (lower (_norm t) :: seen)
        have hlow : lower c0 = lower (_norm t) := (cmapLookup_some hl).2
        simp only [List.map_cons, List.nodup_cons]
        refine ⟨⟨?_, ihn⟩, ?_⟩
        · rw [hlow]
          intro hmem
          exact ihs _ hmem (by simp)
        · intro x hx
          rcases List.mem_cons.mp hx with hx | hx
          · rw [hx, hlow]; exact hs
          · intro hmem
            exact ihs x hx (List.mem_cons_of_mem _ hmem)
    next hl => exact ih seen

/-- A successful filter run only refines keep lists through `refineGo`. -/
theorem pick_ok_shape {env : Env} {cands out : List String}
    (h : _pick_hard_agents_via_gpt env cands = .ok out) :
    out = [] ∨ ∃ keep, out = refineGo cands [] keep := by
  unfold _pick_hard_agents_via_gpt at h
  split at h
  · cases h; exact Or.inl rfl
  · split at h
    next => cases h
    next text hcall =>
      split at h
      next keep hload => cases h; exact Or.inr ⟨keep, rfl⟩
      next hload => cases h
      next hload =>
        split at h
        next => cases h; exact Or.inr ⟨[], rfl⟩
        next inner hf =>
          split at h
          next keep hload2 => cases h; exact Or.inr ⟨keep, rfl⟩
          next x hload2 hx => cases h

theorem frontGo_sound (cur : List String) :
    ∀ (seen q : List String), ∀ f ∈ frontGo cur seen q,
      (∃ x ∈ q, f = _norm x) ∧ f ≠ "" ∧ lower f ∉ cur ∧ lower f ∉ seen := by
  intro seen q
  induction q generalizing seen with
  | nil => intro f h; simp [frontGo] at h
  | cons x rest ih =>
    intro f hf
    simp only [frontGo] at hf
    by_cases he : _norm x = ""
    · rw [if_pos he] at hf
      obtain ⟨⟨y, hy, hfy⟩, h2, h3, h4⟩ := ih seen f hf
      exact ⟨⟨y, List.mem_cons_of_mem _ hy, hfy⟩, h2, h3, h4⟩
    · rw [if_neg he] at hf
      by_cases hm : lower (_norm x) ∈ cur ∨ lower (_norm x) ∈ seen
      · rw [if_pos hm] at hf
        obtain ⟨⟨y, hy, hfy⟩, h2, h3, h4⟩ := ih seen f hf
        exact ⟨⟨y, List.mem_cons_of_mem _ hy, hfy⟩, h2, h3, h4⟩
      · rw [if_neg hm] at hf
        push_neg at hm
        rcases List.mem_cons.mp hf with hf | hf
        · subst hf
          exact ⟨⟨x, by simp, rfl⟩, he, hm.1, hm.2⟩
        · obtain ⟨⟨y, hy, hfy⟩, h2, h3, h4⟩ := ih (lower (_norm x) :: seen) f hf
          exact ⟨⟨y, List.mem_cons_of_mem _ hy, hfy⟩, h2, h3,
            fun hmem => h4 (List.mem_cons_of_mem _ hmem)⟩

theorem frontGo_nodup (cur : List String) :
    ∀ (seen q : List String),
      ((frontGo cur seen q).map lower).Nodup
        ∧ ∀ k ∈ (frontGo cur seen q).map lower, k ∉ seen := by
  intro seen q
  induction q generalizing seen with
  | nil => simp [frontGo]
  | cons x rest ih =>
    simp only [frontGo]
    by_cases he : _norm x = ""
    · rw [if_pos he]
      exact ih seen
    · rw [if_neg he]
      by_cases hm : lower (_norm x) ∈ cur ∨ lower (_norm x) ∈ seen
      · rw [if_pos hm]
        exact ih seen
      · rw [if_neg hm]
        push_neg at hm
        obtain ⟨ihn, ihs⟩ := ih (lower (_norm x) :: seen)
        simp only [List.map_cons, List.nodup_cons]
        refine ⟨⟨?_, ihn⟩, ?_⟩
        · intro hmem
          exact ihs _ hmem (by simp)
        · intro k hk
          rcases List.mem_cons.mp hk with hk | hk
          · rw [hk]; exact hm.2
          · intro hmem
            exact ihs k hk (List.mem_cons_of_mem _ hmem)

theorem agentStep_queue {env : Env} {cfg : Cfg} {a : String}
    {es : List Edge} {qs : List String}
    (h : agentStep env cfg a = .ok (es, qs)) :
    qs = (conceptRes env cfg a).map Triple.target
      ++ (entityRes env cfg a).map Triple.target := by
  unfold agentStep at h
  by_cases ht : cfg.use_term_definition_graph
  · rw [if_pos ht] at h
    cases hc : env.tdgCall a with
    | none =>
      rw [show tdgAdapter env a = .error () by simp [tdgAdapter, hc]] at h
      exact absurd h (by simp [Bind.bind, Except.bind])
    | some text =>
      rw [show tdgAdapter env a
            = .ok (build_term_definition_triples env.tdgLoads env.fencedTdg a text) by
          simp [tdgAdapter, hc]] at h
      simp only [Bind.bind, Except.bind, Pure.pure, Except.pure, Except.ok.injEq] at h
      exact congrArg Prod.snd h.symm
  · rw [if_neg ht] at h
    simp only [Bind.bind, Except.bind, Pure.pure, Except.pure, Except.ok.injEq] at h
    exact congrArg Prod.snd h.symm

theorem expandLoop_queue {env : Env} {cfg : Cfg} :
    ∀ {agents : List String} {es : List Edge} {qs : List String},
      expandLoop env cfg agents = .ok (es, qs) →
      ∀ x ∈ qs, ∃ a, (∃ t ∈ conceptRes env cfg a, x = t.target)
        ∨ (∃ t ∈ entityRes env cfg a, x = t.target) := by
  intro agents
  induction agents with
  | nil =>
    intro es qs h x hx
    simp only [expandLoop, Except.ok.injEq] at h
    have hq : qs = [] := (congrArg Prod.snd h).symm
    rw [hq] at hx
    simp at hx
  | cons a rest ih =>
    intro es qs h x hx
    simp only [expandLoop] at h
    cases h1 : agentStep env cfg a with
    | error u => rw [h1] at h; exact absurd h (by simp [Bind.bind, Except.bind])
    | ok p1 =>
      rw [h1] at h
      cases h2 : expandLoop env cfg rest with
      | error u =>
        rw [h2] at h
        exact absurd h (by simp [Bind.bind, Except.bind])
      | ok p2 =>
        rw [h2] at h
        simp only [Bind.bind, Except.bind, Pure.pure, Except.pure,
          Except.ok.injEq] at h
        have hq : qs = p1.2 ++ p2.2 := by
          have := congrArg Prod.snd h
          simpa using this.symm
        rw [hq] at hx
        rcases List.mem_append.mp hx with hx | hx
        · have hq1 := agentStep_queue
            (show agentStep env cfg a = .ok (p1.1, p1.2) from by rw [h1])
          rw [hq1] at hx
          rcases List.mem_append.mp hx with hx | hx
          · obtain ⟨t, ht, hxt⟩ := List.mem_map.mp hx
            exact ⟨a, Or.inl ⟨t, ht, hxt.symm⟩⟩
          · obtain ⟨t, ht, hxt⟩ := List.mem_map.mp hx
            exact ⟨a, Or.inr ⟨t, ht, hxt.symm⟩⟩
        · exact ih (show expandLoop env cfg rest = .ok (p2.1, p2.2) from by rw [h2]) x hx

/-- Decomposition of a successful `_expand_once` run. -/
theorem expand_once_ok {env : Env} {cfg : Cfg} {agents : List String}
    {edges : List Edge} {frontier : List String}
    (h : _expand_once env cfg agents = .ok (edges, frontier)) :
    ∃ hard es qs, expandLoop env cfg hard = .ok (es, qs)
      ∧ edges = _dedup_edges es
      ∧ frontier = frontGo (agents.map lower) [] qs := by
  unfold _expand_once at h
  cases hp : _pick_hard_agents_via_gpt env agents with
  | error u => rw [hp] at h; exact absurd h (by simp [Bind.bind, Except.bind])
  | ok picked =>
    rw [hp] at h
    simp only [Bind.bind, Except.bind] at h
    cases hl : expandLoop env cfg (if picked.isEmpty then agents else picked) with
    | error u => rw [hl] at h; exact absurd h (by simp)
    | ok p =>
      rw [hl] at h
      simp only [Pure.pure, Except.pure, Except.ok.injEq] at h
      refine ⟨if picked.isEmpty then agents else picked, p.1, p.2, by rw [hl], ?_, ?_⟩
      · exact (congrArg Prod.fst h).symm
      · exact (congrArg Prod.snd h).symm

/-! ### Concrete scenarios used by the claim theorems -/

/-- The module-level default configuration (`__init__.py` lines 19-30):
`CONCEPT_MIN_WEIGHT = 4`, `CONCEPT_MAX = 3`, `ENTITY_MAX = 3`,
`INCLUDE_TDG_EDGES = False`, all three source graphs enabled. -/
def cfg0 : Cfg := ⟨4, some 3, some 3, false, true, true, true⟩

/-- Total external-source unavailability: ConceptNet and DBpedia requests
fail (both adapters catch this and produce `[]`/`none` data) and the OpenAI
chat endpoint is unreachable for the TDG call (`tdgCall = none`, which the
code does not guard).  The filter call itself still answers with an
unparsable-but-recovered empty keep list so that the failure demonstrably
comes from the Term-Definition adapter. -/
def envU : Env := {
  filterCall := fun _ => some "resp"
  filterLoads := fun _ => .keepList []
  fencedFilter := fun _ => none
  conceptData := fun _ => none
  entityFetch := fun _ => []
  tdgCall := fun _ => none
  tdgLoads := fun _ => none
  fencedTdg := fun _ => none }

/-- One extracted event record. -/
def ev0 : List EventRecord :=
  [[("Agent", "GDPR"), ("Deontic", "must"), ("Action", "comply")]]

/-- Configuration with only the TDG enabled and `include_tdg_edges = True`. -/
def cfg2 : Cfg := ⟨4, some 3, some 3, true, false, false, true⟩

/-- Environment where the TDG model call succeeds but its response is
irrecoverably unparsable, producing the empty-target placeholder. -/
def env2 : Env := { envU with tdgCall := fun _ => some "junk" }

/-- Environment whose filter model answers `{"keep": ["GDPR", "Tesla"]}`. -/
def env6 : Env :=
  { envU with
    filterCall := fun _ => some "x"
    filterLoads := fun _ => .keepList ["GDPR", "Tesla"] }

/-- Environment with one successful ConceptNet edge and one successful
DBpedia edge per agent and a TDG model response that parses to nothing. -/
def envW : Env := {
  filterCall := fun _ => some "t"
  filterLoads := fun _ => .keepList []
  fencedFilter := fun _ => none
  conceptData := fun _ => some [⟨"GDPR", "IsA", "regulation", 7⟩]
  entityFetch := fun _ => [⟨"GDPR", "relatedTo", "privacy"⟩]
  tdgCall := fun _ => some "x"
  tdgLoads := fun _ => none
  fencedTdg := fun _ => none }

/-- Two identical event records (duplicate seed triples). -/
def ev5 : List EventRecord :=
  [[("Agent", "Controller"), ("Deontic", "must"), ("Action", "delete personal data")],
   [("Agent", "Controller"), ("Deontic", "must"), ("Action", "delete personal data")]]

/-- Edges for the dedup-key scenario: the first two agree on
(source, relation, target) up to case but carry different `source_graph`
tags; the third has the same full key as the first. -/
def l3 : List Edge :=
  [⟨"GDPR", "IsA", "regulation", "concept"⟩,
   ⟨"gdpr", "IsA", "REGULATION", "entity"⟩,
   ⟨"Gdpr", "IsA", "Regulation", "concept"⟩]

/-- ConceptNet response data for the Concept-adapter scenario. -/
def dataW : List CEdge :=
  [⟨"dog", "IsA", "animal", 7⟩, ⟨"Dog", "IsA", "Animal", 9⟩,
   ⟨"dog", "RelatedTo", "cat", 3⟩, ⟨"dog", "CapableOf", "bark", 5⟩]

/-! ### The claims -/

/-- Claim C1 (code bug): the claim states that no adapter or model-call
failure raises past the Expansion Round boundary, and that under total
external-source unavailability `build_fusion_graph` still returns the
seed-only graph.  The code violates this: `build_term_definition_triples`
calls `client.chat.completions.create` with no `try/except`
(`term_definition_graph.py` line 105), so a transport failure there
propagates through `_expand_once` and `build_fusion_graph`.  This theorem
evaluates the embedded code at the failing input: ConceptNet/DBpedia
unavailability degrades to empty contributions, but the TDG transport
failure makes the whole build raise instead of returning the seed edges. -/
theorem build_fusion_graph_raises_on_tdg_transport_failure :
    build_fusion_graph envU cfg0 ev0 2 = .error () := rfl

/-- Claim C2 counterexample: with `use_term_definition_graph = True` and
`include_tdg_edges = True`, the parse-failure placeholder
`{source = "GDPR", relation = "IsA", target = ""}` is produced by the
adapter and appended to the round's edges, yet the final graph of
`build_fusion_graph` is the seed edge alone: the placeholder does not
appear, contradicting the claim that the configuration flag alone decides
its inclusion. -/
theorem empty_target_tdg_triple_dropped_cex :
    build_term_definition_triples env2.tdgLoads env2.fencedTdg "GDPR" "junk"
      = [⟨"GDPR", "IsA", ""⟩]
    ∧ build_fusion_graph env2 cfg2 ev0 1
      = .ok ⟨[⟨"GDPR", "must", "comply", "eventic"⟩]⟩
    ∧ (⟨"GDPR", "IsA", "", "term_definition"⟩ : Edge)
        ∉ [(⟨"GDPR", "must", "comply", "eventic"⟩ : Edge)] :=
  ⟨rfl, rfl, by decide⟩

/-- Claim C2 (amended): the empty-target placeholder triple is appended to
the round's collected edges when both flags are set, but `_dedup_edges`
drops every edge whose target is empty, so no `term_definition` edge with an
empty target ever appears in a successful output of `build_fusion_graph`,
regardless of configuration. -/
theorem tdg_placeholder_never_in_output (env : Env) (cfg : Cfg)
    (events : List EventRecord) (rounds : Int) (g : FusionGraph) (s : String)
    (h : build_fusion_graph env cfg events rounds = .ok g) :
    (⟨s, "IsA", "", "term_definition"⟩ : Edge) ∉ g.edges := by
  intro hmem
  obtain ⟨x, hx, hv⟩ := build_ok_edges_shape h _ hmem
  have h3 := (enorm_fields hv).2.2.1
  rw [← hx] at h3
  exact h3 rfl

/-- Witness for the amended C2 claim at a concrete run. -/
theorem tdg_placeholder_never_in_output_witness :
    (⟨"GDPR", "IsA", "", "term_definition"⟩ : Edge)
      ∉ (FusionGraph.mk [⟨"GDPR", "must", "comply", "eventic"⟩]).edges :=
  tdg_placeholder_never_in_output envU cfg0 ev0 0
    ⟨[⟨"GDPR", "must", "comply", "eventic"⟩]⟩ "GDPR" rfl

/-- Claim C3: the Deduplicator's identity key is exactly
`(lowercase(source), relation, lowercase(target), source_graph)` computed on
the normalised fields: (1) the output carries no two edges with equal keys
(equal-key triples collapse to one); (2) every valid input edge keeps a
representative of its key, so triples equal in `(source, relation, target)`
up to case but differing in `source_graph` have different keys and are both
retained; (3) the retained representative of a key is the normalisation of
the first input edge carrying it. -/
theorem dedup_identity_key_spec (l : List Edge) :
    ((_dedup_edges l).map okey).Nodup
    ∧ (∀ e ∈ l, evalid e = true → ∃ e' ∈ _dedup_edges l, okey e' = ekey e)
    ∧ ∀ k, (_dedup_edges l).find? (fun e' => okey e' == k)
        = ((l.find? fun e => evalid e && (ekey e == k)).map enorm) :=
  ⟨(dedupGo_nodup [] l).1,
   fun e he hv => dedupGo_complete [] l e he hv (by simp),
   fun k => dedupGo_first [] l k (by simp)⟩

/-- Witness for C3: in `l3`, the case-variant edge with a different
`source_graph` tag is retained alongside the first edge. -/
theorem dedup_identity_key_spec_witness :
    ∃ e' ∈ _dedup_edges l3,
      okey e' = ekey ⟨"gdpr", "IsA", "REGULATION", "entity"⟩ :=
  (dedup_identity_key_spec l3).2.1 ⟨"gdpr", "IsA", "REGULATION", "entity"⟩
    (by decide) (by decide)

/-- Claim C4: for every round input, a successful `_expand_once` returns a
frontier whose members (1) are never case-insensitively equal to any input
agent, even when rediscovered as targets; (2) are pairwise distinct
case-insensitively; (3) are nonempty and whitespace-collapsed; (4) are the
normalisations of targets produced by the Concept or the Entity adapter —
Term-Definition outputs are never enqueued. -/
theorem frontier_spec (env : Env) (cfg : Cfg) (agents : List String)
    (edges : List Edge) (frontier : List String)
    (h : _expand_once env cfg agents = .ok (edges, frontier)) :
    (∀ f ∈ frontier, ∀ a ∈ agents, lower f ≠ lower a)
    ∧ (frontier.map lower).Nodup
    ∧ (∀ f ∈ frontier, f ≠ "" ∧ Tidy f)
    ∧ ∀ f ∈ frontier, ∃ x, (∃ a, (∃ t ∈ conceptRes env cfg a, x = t.target)
        ∨ (∃ t ∈ entityRes env cfg a, x = t.target)) ∧ f = _norm x := by
  obtain ⟨hard, es, qs, hloop, hE, hF⟩ := expand_once_ok h
  subst hF
  refine ⟨?_, (frontGo_nodup _ [] qs).1, ?_, ?_⟩
  · intro f hf a ha
    have h4 := (frontGo_sound _ [] qs f hf).2.2.1
    intro heq
    exact h4 (heq ▸ List.mem_map_of_mem lower ha)
  · intro f hf
    obtain ⟨⟨x, hx, hfx⟩, hne, _, _⟩ := frontGo_sound _ [] qs f hf
    exact ⟨hne, hfx ▸ tidy_norm x⟩
  · intro f hf
    obtain ⟨⟨x, hx, hfx⟩, _, _, _⟩ := frontGo_sound _ [] qs f hf
    exact ⟨x, expandLoop_queue hloop x hx, hfx⟩

/-- Witness for C4 at a concrete expansion of `["GDPR"]`. -/
theorem frontier_spec_witness :
    (∀ f ∈ ["regulation", "privacy"], ∀ a ∈ ["GDPR"], lower f ≠ lower a)
    ∧ ((["regulation", "privacy"]).map lower).Nodup
    ∧ (∀ f ∈ ["regulation", "privacy"], f ≠ "" ∧ Tidy f)
    ∧ ∀ f ∈ ["regulation", "privacy"], ∃ x,
        (∃ a, (∃ t ∈ conceptRes envW cfg0 a, x = t.target)
          ∨ (∃ t ∈ entityRes envW cfg0 a, x = t.target)) ∧ f = _norm x :=
  frontier_spec envW cfg0 ["GDPR"]
    [⟨"GDPR", "IsA", "regulation", "concept"⟩,
     ⟨"GDPR", "relatedTo", "privacy", "entity"⟩]
    ["regulation", "privacy"] rfl

/-- Claim C5 counterexample: with two identical event records the raw seed
edge list has length 2, but the final graph (here with `rounds = 0`)
deduplicates them to a single edge, so the final edge count is strictly
below the seed edge count, refuting the claim's first conjunct for raw seed
edges. -/
theorem final_count_lt_raw_seed_count_cex :
    (_eventic_to_triples ev5).length = 2
    ∧ build_fusion_graph envU cfg0 ev5 0
      = .ok ⟨[⟨"Controller", "must", "delete personal data", "eventic"⟩]⟩ :=
  ⟨rfl, rfl⟩

/-- Claim C5 (amended): replacing the raw seed count by the deduplicated
seed count the claim holds.  For every accumulation run: the build output is
the dedup of the accumulated edges, its count is at least the deduplicated
seed count, and every valid edge ever accumulated (seed or any round's
collected edges) keeps an equal-key representative in the final output — an
edge only disappears by dedup collapse with an equal-key edge. -/
theorem fusion_monotone_accumulation (env : Env) (cfg : Cfg)
    (events : List EventRecord) (rounds : Int) (acc : List Edge)
    (h : fusionRounds env cfg (max 0 rounds).toNat (_eventic_to_triples events)
        (_extract_agents_from_eventic events) = .ok acc) :
    build_fusion_graph env cfg events rounds = .ok ⟨_dedup_edges acc⟩
    ∧ (_dedup_edges (_eventic_to_triples events)).length
        ≤ (_dedup_edges acc).length
    ∧ ∀ e ∈ acc, evalid e = true →
        ∃ e' ∈ _dedup_edges acc, okey e' = ekey e := by
  refine ⟨?_, ?_, fun e he hv => dedupGo_complete [] acc e he hv (by simp)⟩
  · rw [build_fusion_graph_eq, h]; rfl
  · have hsub : _eventic_to_triples events ⊆ acc :=
      fun e he => fusionRounds_mono env cfg _ _ _ acc h e he
    have hkeys : (_dedup_edges (_eventic_to_triples events)).map okey
        ⊆ (_dedup_edges acc).map okey := by
      intro k hk
      rw [mem_key_dedup] at hk ⊢
      obtain ⟨e, he, hv, hke⟩ := hk
      exact ⟨e, hsub he, hv, hke⟩
    have hnd := (dedupGo_nodup [] (_eventic_to_triples events)).1
    have hlen := (List.subperm_of_subset hnd hkeys).length_le
    simpa using hlen

/-- Witness for C5 at a zero-round run. -/
theorem fusion_monotone_accumulation_witness :
    build_fusion_graph envU cfg0 ev0 0
      = .ok ⟨_dedup_edges (_eventic_to_triples ev0)⟩
    ∧ (_dedup_edges (_eventic_to_triples ev0)).length
        ≤ (_dedup_edges (_eventic_to_triples ev0)).length
    ∧ ∀ e ∈ _eventic_to_triples ev0, evalid e = true →
        ∃ e' ∈ _dedup_edges (_eventic_to_triples ev0), okey e' = ekey e :=
  fusion_monotone_accumulation envU cfg0 ev0 0 (_eventic_to_triples ev0) rfl

/-- Claim C6 counterexample: with the model answering
`{"keep": ["GDPR", "Tesla"]}` for candidates `["Tesla", "GDPR"]`, the filter
returns `["GDPR", "Tesla"]` — the keep-list order, which is not a
subsequence of the input order, refuting order preservation. -/
theorem filter_not_input_order_cex :
    _pick_hard_agents_via_gpt env6 ["Tesla", "GDPR"] = .ok ["GDPR", "Tesla"]
    ∧ ¬ List.Sublist ["GDPR", "Tesla"] ["Tesla", "GDPR"] :=
  ⟨rfl, by decide⟩

/-- Claim C6 (amended): every string a successful filter run returns is one
of the input candidates (matched case-insensitively, never model-invented)
and the output is duplicate-free case-insensitively; the output order,
however, follows the model's keep list, not the input order. -/
theorem filter_subset_spec (env : Env) (cands out : List String)
    (h : _pick_hard_agents_via_gpt env cands = .ok out) :
    (∀ c ∈ out, c ∈ cands) ∧ (out.map lower).Nodup := by
  rcases pick_ok_shape h with rfl | ⟨keep, rfl⟩
  · exact ⟨by simp, by simp⟩
  · exact ⟨fun c hc => (refineGo_sound cands [] keep c hc).1,
      (refineGo_nodup cands [] keep).1⟩

/-- Witness for the amended C6 claim. -/
theorem filter_subset_spec_witness :
    (∀ c ∈ ["GDPR", "Tesla"], c ∈ ["Tesla", "GDPR"])
    ∧ ((["GDPR", "Tesla"]).map lower).Nodup :=
  filter_subset_spec env6 ["Tesla", "GDPR"] ["GDPR", "Tesla"] rfl

/-- Claim C7: for every keyword and obtained model response, the
Term-Definition adapter returns exactly one triple whose relation is the
constant `"IsA"` and whose source is exactly the input keyword, whatever the
parser observes; and when both the direct parse and the fenced-block parse
fail irrecoverably, that single triple is
`{source = keyword, relation = "IsA", target = ""}`. -/
theorem tdg_exactly_one_spec (loads : String → Option PyObj)
    (fence : String → Option String) (keyword text : String) :
    (∃ t : Triple, build_term_definition_triples loads fence keyword text = [t]
      ∧ t.relation = "IsA" ∧ t.source = keyword)
    ∧ (tryObj (loads text) = none →
       (∀ inner, fence text = some inner → tryObj (loads inner) = none) →
       build_term_definition_triples loads fence keyword text
         = [⟨keyword, "IsA", ""⟩]) := by
  constructor
  · exact ⟨{ _coerce_single_triple loads fence text keyword with
      relation := "IsA", source := keyword }, rfl, rfl, rfl⟩
  · intro h1 h2
    have hc : _coerce_single_triple loads fence text keyword
        = fallbackTriple keyword := by
      unfold _coerce_single_triple
      rw [h1]
      cases hf : fence text with
      | none => rfl
      | some inner =>
        show (match tryObj (loads inner) with
          | some tri => tri
          | none => fallbackTriple keyword) = fallbackTriple keyword
        rw [h2 inner hf]
    unfold build_term_definition_triples
    rw [hc]
    rfl

/-- Witness for C7 at an always-failing parse. -/
theorem tdg_exactly_one_spec_witness :
    build_term_definition_triples (fun _ => none) (fun _ => none) "GDPR" "junk"
      = [⟨"GDPR", "IsA", ""⟩] :=
  (tdg_exactly_one_spec (fun _ => none) (fun _ => none) "GDPR" "junk").2 rfl
    (fun _ h => nomatch h)

/-- Claim C8: with `rounds = 0` the orchestrator performs no expansion round
— the result does not depend on any external behaviour or configuration —
and the output is exactly the deduplicated seed edges wrapped as the
one-field edges object. -/
theorem rounds_zero_spec (env env' : Env) (cfg cfg' : Cfg)
    (events : List EventRecord) :
    build_fusion_graph env cfg events 0
      = .ok ⟨_dedup_edges (_eventic_to_triples events)⟩
    ∧ build_fusion_graph env cfg events 0 = build_fusion_graph env' cfg' events 0 :=
  ⟨rfl, rfl⟩

/-- Claim C9: for every successful ConceptNet response, the Concept adapter
(1) only returns triples stemming from response edges with weight at least
`min_weight`; (2) returns no two triples with the same
`(lowercase source, relation, lowercase target)` signature; (3) ranks the
kept weighted edges in descending weight order; (4) equals that ranking
truncated to `max_count` with the weight field stripped (the return type
carries no weight); (5) returns at most `max_count` triples when `max_count`
is given. -/
theorem concept_adapter_spec (data : List CEdge)
    (relations : Option (List String)) (minW : Rat) (maxN : Option Nat) :
    (∀ t ∈ fetch_conceptnet_triples (some data) relations minW maxN,
      ∃ e ∈ data, minW ≤ e.weight ∧ t = stripW e)
    ∧ ((fetch_conceptnet_triples (some data) relations minW maxN).map
        (fun t => (lower t.source, t.relation, lower t.target))).Nodup
    ∧ (sortDescW (collectC relations minW [] data)).Sorted
        (fun a b => b.weight ≤ a.weight)
    ∧ fetch_conceptnet_triples (some data) relations minW maxN
        = (truncOpt maxN (sortDescW (collectC relations minW [] data))).map stripW
    ∧ ∀ n, maxN = some n →
        (fetch_conceptnet_triples (some data) relations minW maxN).length ≤ n := by
  have hperm : List.Perm (sortDescW (collectC relations minW [] data))
      (collectC relations minW [] data) := List.perm_insertionSort _ _
  have hsub : ∀ x ∈ truncOpt maxN (sortDescW (collectC relations minW [] data)),
      x ∈ collectC relations minW [] data := by
    intro x hx
    cases maxN with
    | none => exact hperm.mem_iff.mp hx
    | some n => exact hperm.mem_iff.mp (List.take_subset n _ hx)
  refine ⟨?_, ?_, List.sorted_insertionSort _ _, rfl, ?_⟩
  · intro t ht
    obtain ⟨e, he, rfl⟩ := List.mem_map.mp ht
    obtain ⟨hedata, hw, _⟩ := collectC_sound relations minW [] data e (hsub e he)
    exact ⟨e, hedata, hw, rfl⟩
  · show ((truncOpt maxN (sortDescW (collectC relations minW [] data))).map stripW).map
        (fun t => (lower t.source, t.relation, lower t.target)) |>.Nodup
    rw [List.map_map]
    have hfun : ((fun t : Triple => (lower t.source, t.relation, lower t.target))
        ∘ stripW) = csig := funext fun e => rfl
    rw [hfun]
    have hnodC : ((collectC relations minW [] data).map csig).Nodup :=
      (collectC_nodup relations minW [] data).1
    have hnodS : ((sortDescW (collectC relations minW [] data)).map csig).Nodup :=
      ((hperm.map csig).nodup_iff).mpr hnodC
    cases maxN with
    | none => exact hnodS
    | some n =>
      rw [show truncOpt (some n) (sortDescW (collectC relations minW [] data))
            = (sortDescW (collectC relations minW [] data)).take n from rfl,
          List.map_take]
      exact hnodS.sublist (List.take_sublist _ _)
  · intro n hn
    subst hn
    show ((sortDescW (collectC relations minW [] data)).take n |>.map stripW).length ≤ n
    rw [List.length_map]
    exact List.length_take_le _ _

/-- Witness for C9 at a concrete response. -/
theorem concept_adapter_spec_witness :
    (∀ t ∈ fetch_conceptnet_triples (some dataW) none 4 (some 2),
      ∃ e ∈ dataW, 4 ≤ e.weight ∧ t = stripW e)
    ∧ ((fetch_conceptnet_triples (some dataW) none 4 (some 2)).map
        (fun t => (lower t.source, t.relation, lower t.target))).Nodup
    ∧ (sortDescW (collectC none 4 [] dataW)).Sorted
        (fun a b => b.weight ≤ a.weight)
    ∧ fetch_conceptnet_triples (some dataW) none 4 (some 2)
        = (truncOpt (some 2) (sortDescW (collectC none 4 [] dataW))).map stripW
    ∧ ∀ n, (some 2 : Option Nat) = some n →
        (fetch_conceptnet_triples (some dataW) none 4 (some 2)).length ≤ n :=
  concept_adapter_spec dataW none 4 (some 2)

/-- Claim C10 (implicit): `_dedup_edges` silently drops every edge whose
whitespace-normalised source, relation or target is empty, and consequently
every edge of a successful `build_fusion_graph` output has nonempty source,
relation and target, each trimmed with internal whitespace runs collapsed to
single spaces. -/
theorem dedup_drops_empty_and_output_tidy :
    (∀ (e : Edge) (l : List Edge), evalid e = false →
        _dedup_edges (e :: l) = _dedup_edges l)
    ∧ ∀ (env : Env) (cfg : Cfg) (events : List EventRecord) (rounds : Int)
        (g : FusionGraph), build_fusion_graph env cfg events rounds = .ok g →
        ∀ e ∈ g.edges, e.source ≠ "" ∧ e.relation ≠ "" ∧ e.target ≠ ""
          ∧ Tidy e.source ∧ Tidy e.relation ∧ Tidy e.target := by
  refine ⟨fun e l h => dedup_drops_invalid e l h, ?_⟩
  intro env cfg events rounds g h e he
  obtain ⟨x, rfl, hv⟩ := build_ok_edges_shape h e he
  exact enorm_fields hv

/-- Witness for C10 on a concrete build output edge. -/
theorem dedup_drops_empty_and_output_tidy_witness :
    ("GDPR" : String) ≠ "" ∧ ("must" : String) ≠ "" ∧ ("comply" : String) ≠ ""
    ∧ Tidy "GDPR" ∧ Tidy "must" ∧ Tidy "comply" :=
  dedup_drops_empty_and_output_tidy.2 envU cfg0 ev0 0
    ⟨[⟨"GDPR", "must", "comply", "eventic"⟩]⟩ rfl
    ⟨"GDPR", "must", "comply", "eventic"⟩ (by simp)

end FusionSpec
